import Mathlib

/-!
Verification development for the JMDN_Merkletree streaming range-tagged
Merkle accumulator.  The Go package is shallowly embedded: machine integers
become `Nat` with explicit `% 2^64` / `% 2^32` at every operation where the
Go code wraps, the injected streaming hasher becomes a function
`H : List Nat → Hash32` on the concatenation of all written bytes, and
fallible operations return an error component next to the (possibly
partially mutated) state, mirroring Go's in-place mutation on error paths.
-/

namespace JMDN

/-- A 32-byte digest, as in the Go `Hash32 [32]byte`. -/
def Hash32 : Type := {l : List Nat // l.length = 32}

instance : DecidableEq Hash32 := fun a b =>
  match decEq a.1 b.1 with
  | isTrue e => isTrue (Subtype.ext e)
  | isFalse n => isFalse (fun e => n (congrArg Subtype.val e))

/-- The all-zero digest, Go's `Hash32{}`. -/
def zeroHash : Hash32 := ⟨List.replicate 32 0, by simp⟩

/-- A hash factory: the digest of the concatenation of all bytes written to
the streaming hasher.  Mirrors Go's injected `HashFactory`. -/
def HF : Type := List Nat → Hash32

/-- Little-endian byte serialization of `v` on `w` bytes
(`binary.LittleEndian.PutUintNN`). -/
def leBytes (w v : Nat) : List Nat := (List.range w).map (fun i => v / 256 ^ i % 256)

/-- Little-endian byte decoding (`binary.LittleEndian.UintNN`). -/
def fromLE (bs : List Nat) : Nat := bs.foldr (fun b acc => b + 256 * acc) 0

/-- Build a `Hash32` from a byte list by truncating/zero-padding to 32
bytes; the identity on 32-byte lists. -/
def mkHash (l : List Nat) : Hash32 :=
  ⟨l.take 32 ++ List.replicate (32 - l.length) 0, by
    simp only [List.length_append, List.length_take, List.length_replicate]
    omega⟩

/-- Go domain tags. -/
def tagElem : Nat := 0x21
def tagChunk : Nat := 0x10
def tagOuterNode : Nat := 0x11
def tagSnapshotV1 : Nat := 0xA1

def U64 : Nat := 2 ^ 64
def U32 : Nat := 2 ^ 32

/-- Per-block element digest `H(tagElem ‖ height_u64_le ‖ blockHash)`. -/
def elemDigest (H : HF) (height : Nat) (blockHash : Hash32) : Hash32 :=
  H ([tagElem] ++ leBytes 8 height ++ blockHash.1)

/-- Chunk digest `H(tagChunk ‖ start ‖ count ‖ elem₁ ‖ … ‖ elem_k)`. -/
def chunkDigest (H : HF) (start count : Nat) (elems : List Hash32) : Hash32 :=
  H ([tagChunk] ++ leBytes 8 start ++ leBytes 4 count ++ (elems.map Subtype.val).flatten)

/-- Outer internal node digest `H(tagOuterNode ‖ start ‖ count ‖ left ‖ right)`. -/
def outerNodeDigest (H : HF) (start count : Nat) (left right : Hash32) : Hash32 :=
  H ([tagOuterNode] ++ leBytes 8 start ++ leBytes 4 count ++ left.1 ++ right.1)

/-- A node of the outer structure.  The Go accumulator's `node` carries
`(start, count, sum)`; the repository's diff engines additionally use
child links and a `HasData` leaf marker (`Node`), retained here on the
`inner` constructor so one type serves both. -/
inductive Node where
  | leaf (start count : Nat) (sum : Hash32)
  | inner (start count : Nat) (sum : Hash32) (l r : Node)
deriving DecidableEq

namespace Node

def start : Node → Nat
  | leaf s _ _ => s
  | inner s _ _ _ _ => s

def count : Node → Nat
  | leaf _ c _ => c
  | inner _ c _ _ _ => c

def sum : Node → Hash32
  | leaf _ _ h => h
  | inner _ _ h _ _ => h

end Node

/-- Errors surfaced by the package (surface kinds, not messages). -/
inductive Err where
  | unexpectedStart
  | nonContigChunk
  | nonContigCombine
  | snapVersion
  | snapConfig
  | snapBounds
  | eof
  | nilNode
  | fuelOut
deriving DecidableEq

/-- The streaming peaks accumulator: a sparse array of peaks indexed by
level plus the number of leaves added.  The hash factory and combiner that
Go stores in the struct are passed explicitly to each operation. -/
structure Acc where
  peaks : List (Option Node)
  leafCount : Nat
deriving DecidableEq

/-- `newPeaksAccumulator`. -/
def newPeaksAccumulator : Acc := ⟨[], 0⟩

/-- The carry loop of `peaksAccumulator.AddLeaf`, walking levels upward.
On a contiguity failure the slots already cleared below stay cleared,
exactly as in the Go code. -/
def addLoop (H : HF) : List (Option Node) → Node → Option Err × List (Option Node)
  | [], carry => (none, [some carry])
  | none :: rest, carry => (none, some carry :: rest)
  | some L :: rest, carry =>
    if (L.start + L.count) % U64 ≠ carry.start then
      (some .nonContigCombine, some L :: rest)
    else
      let combinedStart := L.start
      let combinedCount := (L.count + carry.count) % U32
      let combinedSum := outerNodeDigest H combinedStart combinedCount L.sum carry.sum
      let res := addLoop H rest (.inner combinedStart combinedCount combinedSum L carry)
      (res.1, none :: res.2)

/-- `peaksAccumulator.AddLeaf`. -/
def AddLeaf (H : HF) (a : Acc) (n : Node) : Option Err × Acc :=
  match addLoop H a.peaks n with
  | (none, ps) => (none, ⟨ps, (a.leafCount + 1) % U64⟩)
  | (some e, ps) => (some e, ⟨ps, a.leafCount⟩)

/-- The running fold value inside `peaksAccumulator.Root` (a local `node`
value without children in the Go code). -/
structure RNode where
  start : Nat
  count : Nat
  sum : Hash32
deriving DecidableEq

/-- The fold loop of `peaksAccumulator.Root`: the argument list is the
peaks in descending level order (the Go loop runs the index from
`len(peaks)-1` down to `0`). -/
def rootLoop (H : HF) : List (Option Node) → Option RNode → Hash32
  | [], none => zeroHash
  | [], some root => root.sum
  | none :: rest, acc => rootLoop H rest acc
  | some p :: rest, none => rootLoop H rest (some ⟨p.start, p.count, p.sum⟩)
  | some p :: rest, some root =>
    if (root.start + root.count) % U64 ≠ p.start then zeroHash
    else
      rootLoop H rest (some ⟨root.start, (root.count + p.count) % U32,
        outerNodeDigest H root.start ((root.count + p.count) % U32) root.sum p.sum⟩)

/-- `peaksAccumulator.Root`. -/
def Root (H : HF) (a : Acc) : Hash32 := rootLoop H a.peaks.reverse none

/-- Builder configuration.  `blockMerge` is a Go `int` (may be ≤ 0, then
defaulted); the hash factory is passed to each operation instead of being
stored, since Go never serializes it either. -/
structure Config where
  blockMerge : Int
  startHeight : Option Nat
deriving DecidableEq

/-- Builder state (`cfg.BlockMerge` already normalized by `NewBuilder`). -/
structure Builder where
  blockMerge : Nat
  enforceHeights : Bool
  expectedNextHeight : Nat
  inChunkElems : List Hash32
  inChunkStart : Nat
  outer : Acc
  totalBlocks : Nat
deriving DecidableEq

/-- `NewBuilder` (the error return is always nil in the Go code). -/
def NewBuilder (cfg : Config) : Builder :=
  let B : Nat := if cfg.blockMerge ≤ 0 then 200 else cfg.blockMerge.toNat
  { blockMerge := B
    enforceHeights := cfg.startHeight.isSome
    expectedNextHeight := (cfg.startHeight.getD 0) % U64
    inChunkElems := []
    inChunkStart := 0
    outer := newPeaksAccumulator
    totalBlocks := 0 }

/-- `Builder.commitCurrentChunk`: commit the buffered chunk (full or short)
into the outer accumulator, then reset the in-chunk state.  On an
`AddLeaf` failure the buffer is not reset, as in Go. -/
def commitCurrentChunk (H : HF) (b : Builder) : Option Err × Builder :=
  if b.inChunkElems.isEmpty then (none, b)
  else
    let start := b.inChunkStart
    let count := b.inChunkElems.length % U32
    let chunk := chunkDigest H start count b.inChunkElems
    match AddLeaf H b.outer (.leaf start count chunk) with
    | (none, a') => (none, { b with inChunkElems := [], inChunkStart := 0, outer := a' })
    | (some e, a') => (some e, { b with outer := a' })

/-- Ingest one element at `height` into `b` (whose chunk-start handling
has already run): append the element digest, bump the totals, and advance
the expected next height in strict mode. -/
def ingest (H : HF) (b : Builder) (height : Nat) (bh : Hash32) : Builder :=
  { b with
    inChunkElems := b.inChunkElems ++ [elemDigest H height bh]
    totalBlocks := (b.totalBlocks + 1) % U64
    expectedNextHeight :=
      if b.enforceHeights then (b.expectedNextHeight + 1) % U64
      else b.expectedNextHeight }

/-- The element loop of `Builder.Push`: `s` is the u64-reduced batch
start height and the `Nat` argument the index of the current element in
the batch; the result is `(accepted, error, builder)` with the partially
advanced builder on error, as in Go. -/
def pushLoop (H : HF) (s : Nat) : List Hash32 → Nat → Builder → Nat × Option Err × Builder
  | [], _, b => (0, none, b)
  | bh :: rest, i, b =>
    let height := if b.enforceHeights then b.expectedNextHeight else (s + i) % U64
    if ¬ b.inChunkElems.isEmpty ∧ height ≠ (b.inChunkStart + b.inChunkElems.length) % U64 then
      (0, some .nonContigChunk, b)
    else
      let b1 := if b.inChunkElems.isEmpty then { b with inChunkStart := height } else b
      let b2 := ingest H b1 height bh
      if b2.inChunkElems.length = b2.blockMerge then
        match commitCurrentChunk H b2 with
        | (some e, b3) => (1, some e, b3)
        | (none, b3) =>
          let res := pushLoop H s rest (i + 1) b3
          (1 + res.1, res.2.1, res.2.2)
      else
        let res := pushLoop H s rest (i + 1) b2
        (1 + res.1, res.2.1, res.2.2)

/-- `Builder.Push`: ingest a contiguous batch of block hashes. -/
def Push (H : HF) (b : Builder) (startHeight : Nat) (blockHashes : List Hash32) :
    Nat × Option Err × Builder :=
  if blockHashes.isEmpty then (0, none, b)
  else
    let s := startHeight % U64
    if b.enforceHeights ∧ s ≠ b.expectedNextHeight then (0, some .unexpectedStart, b)
    else pushLoop H s blockHashes 0 b

/-- `Builder.Finalize`: commit any buffered chunk and return the global
root (zero hash and the error on a failed commit). -/
def Finalize (H : HF) (b : Builder) : Option Err × Hash32 × Builder :=
  if b.inChunkElems.isEmpty then (none, Root H b.outer, b)
  else
    match commitCurrentChunk H b with
    | (some e, b') => (some e, zeroHash, b')
    | (none, b') => (none, Root H b'.outer, b')

/-- `ComputeChunkDigest`: the stateless fast-path chunk digest. -/
def ComputeChunkDigest (H : HF) (startHeight : Nat) (blockHashes : List Hash32) : Hash32 :=
  let s := startHeight % U64
  let count := blockHashes.length % U32
  if blockHashes.isEmpty then zeroHash
  else
    let elems := (List.range blockHashes.length).zip blockHashes |>.map
      (fun p => elemDigest H ((s + p.1) % U64) p.2)
    chunkDigest H s count elems

/-- A `bytes.Reader`: the snapshot bytes plus a read position. -/
structure Reader where
  data : List Nat
  pos : Nat
deriving DecidableEq

/-- `bytes.Reader.ReadByte`: fails only when the position is at or past
the end of the data. -/
def readByte (r : Reader) : Option (Nat × Reader) :=
  if r.pos < r.data.length then some (r.data.getD r.pos 0, ⟨r.data, r.pos + 1⟩) else none

/-- `bytes.Reader.Read` into a fresh zeroed `n`-byte buffer, with Go's
short-read semantics: at least one byte available means no error, and the
unfilled tail of the buffer stays zero.  (The Go callers ignore the
returned byte count, so a short read silently yields a zero-padded
value — modelled faithfully here.) -/
def readBytes (n : Nat) (r : Reader) : Option (List Nat × Reader) :=
  if r.pos < r.data.length then
    let avail := r.data.length - r.pos
    some ((r.data.drop r.pos).take n ++ List.replicate (n - avail) 0,
      ⟨r.data, r.pos + min n avail⟩)
  else none

/-- `readU64`. -/
def readU64 (r : Reader) : Option (Nat × Reader) :=
  (readBytes 8 r).map (fun p => (fromLE p.1, p.2))

/-- `readU32`. -/
def readU32 (r : Reader) : Option (Nat × Reader) :=
  (readBytes 4 r).map (fun p => (fromLE p.1, p.2))

/-- Reading a 32-byte hash (`r.Read(e[:])`); `readBytes` always returns
exactly 32 bytes here, so `mkHash` only attaches the length fact. -/
def readHash (r : Reader) : Option (Hash32 × Reader) :=
  (readBytes 32 r).map (fun p => (mkHash p.1, p.2))

/-- The slot loop of `peaksAccumulator.Decode`: the Go code preallocates
all `n` slots as nil and fills them in order, so a mid-loop read failure
leaves the decoded prefix followed by nil slots. -/
def decodePeaks : Nat → Reader → Option Err × List (Option Node) × Reader
  | 0, r => (none, [], r)
  | k + 1, r =>
    match readByte r with
    | none => (some .eof, List.replicate (k + 1) none, r)
    | some (flag, r1) =>
      if flag = 0 then
        let res := decodePeaks k r1
        (res.1, none :: res.2.1, res.2.2)
      else
        match readU64 r1 with
        | none => (some .eof, List.replicate (k + 1) none, r1)
        | some (start, r2) =>
          match readU32 r2 with
          | none => (some .eof, List.replicate (k + 1) none, r2)
          | some (count, r3) =>
            match readHash r3 with
            | none => (some .eof, List.replicate (k + 1) none, r3)
            | some (s, r4) =>
              let res := decodePeaks k r4
              (res.1, some (.leaf start count s) :: res.2.1, res.2.2)

/-- `peaksAccumulator.Decode`, on the fresh accumulator that `Restore`
installs before decoding. -/
def Decode (r : Reader) : Option Err × Acc × Reader :=
  match readU64 r with
  | none => (some .eof, newPeaksAccumulator, r)
  | some (lc, r1) =>
    match readU32 r1 with
    | none => (some .eof, ⟨[], lc⟩, r1)
    | some (n, r2) =>
      let res := decodePeaks n r2
      (res.1, ⟨res.2.1, lc⟩, res.2.2)

/-- The in-chunk element loop of `Builder.Restore` (Go appends to the
freshly reset buffer; a failure keeps the elements read so far). -/
def readElems : Nat → Reader → Option Err × List Hash32 × Reader
  | 0, r => (none, [], r)
  | k + 1, r =>
    match readHash r with
    | none => (some .eof, [], r)
    | some (e, r') =>
      let res := readElems k r'
      (res.1, e :: res.2.1, res.2.2)

/-- The tail of `Builder.Restore` after the enforce-flag phase: totals,
in-chunk buffer, then the outer peaks.  Mirrors Go's in-place and
in-order mutation (a read failure of a u64 field assigns 0 to it, since
Go assigns the returned value before checking the error). -/
def restoreTail (b : Builder) (r : Reader) : Option Err × Builder :=
  match readU64 r with
  | none => (some .eof, { b with totalBlocks := 0 })
  | some (tb, r1) =>
    let b1 := { b with totalBlocks := tb }
    match readU64 r1 with
    | none => (some .eof, { b1 with inChunkStart := 0 })
    | some (cs, r2) =>
      let b2 := { b1 with inChunkStart := cs }
      match readU32 r2 with
      | none => (some .eof, b2)
      | some (n, r3) =>
        if n > b2.blockMerge then (some .snapBounds, b2)
        else
          match readElems n r3 with
          | (some e, elems, _) => (some e, { b2 with inChunkElems := elems })
          | (none, elems, r4) =>
            let b3 := { b2 with inChunkElems := elems }
            match Decode r4 with
            | (some e, a, _) => (some e, { b3 with outer := a })
            | (none, a, _) => (none, { b3 with outer := a })

/-- `Builder.Restore`: load a binary v1 snapshot, mutating the builder
field by field in the order of the Go code. -/
def Restore (b : Builder) (snapshot : List Nat) : Option Err × Builder :=
  match readByte ⟨snapshot, 0⟩ with
  | none => (some .eof, b)
  | some (v, r1) =>
    if v ≠ tagSnapshotV1 then (some .snapVersion, b)
    else
      match readU32 r1 with
      | none => (some .eof, b)
      | some (bm, r2) =>
        if bm ≠ b.blockMerge then (some .snapConfig, b)
        else
          match readByte r2 with
          | none => (some .eof, b)
          | some (enf, r3) =>
            if enf = 1 then
              match readU64 r3 with
              | none =>
                (some .eof, { b with enforceHeights := true, expectedNextHeight := 0 })
              | some (h, r4) =>
                restoreTail { b with enforceHeights := true, expectedNextHeight := h } r4
            else
              restoreTail { b with enforceHeights := false } r3

instance : DecidableEq (Except Err (Nat × Nat)) := fun a b =>
  match a, b with
  | .ok x, .ok y =>
    if h : x = y then isTrue (by rw [h]) else isFalse (fun q => by cases q; exact h rfl)
  | .ok _, .error _ => isFalse (fun q => by cases q)
  | .error _, .ok _ => isFalse (fun q => by cases q)
  | .error x, .error y =>
    if h : x = y then isTrue (by rw [h]) else isFalse (fun q => by cases q; exact h rfl)

/-- The element digests produced for a batch tail: the element at offset
`j` in `l` was pushed at height `(s + i + j) % 2^64`. -/
def elemsFrom (H : HF) (s : Nat) : Nat → List Hash32 → List Hash32
  | _, [] => []
  | i, x :: xs => elemDigest H ((s + i) % U64) x :: elemsFrom H s (i + 1) xs

/-- Pushing a list of contiguous sub-batches in order, each at its correct
start height; stops at the first push error. -/
def pushSeq (H : HF) : Builder → Nat → List (List Hash32) → Option Err × Builder
  | b, _, [] => (none, b)
  | b, s, part :: rest =>
    match Push H b s part with
    | (_, some e, b') => (some e, b')
    | (_, none, b') => pushSeq H b' (s + part.length) rest

/-- The occupied peaks in descending level order — the order in which
`Root` folds them. -/
def occupiedDesc (a : Acc) : List Node := a.peaks.reverse.filterMap id

/-- The fold step of the claim-level `Root` description: combine the
running fold (left) with the next peak (right). -/
def combineR (H : HF) (acc : RNode) (q : Node) : RNode :=
  ⟨acc.start, (acc.count + q.count) % U32,
    outerNodeDigest H acc.start ((acc.count + q.count) % U32) acc.sum q.sum⟩

/-- Claim-level description of the `Root` fold: left-to-right over the
occupied peaks in descending level order, with the accumulated fold as
the left operand, returning the zero hash on a contiguity violation. -/
def specFold (H : HF) : RNode → List Node → Hash32
  | acc, [] => acc.sum
  | acc, q :: rest =>
    if (acc.start + acc.count) % U64 ≠ q.start then zeroHash
    else specFold H (combineR H acc q) rest

/-- Claim-level description of `Root` (spec §4.2): fold the occupied
peaks from the highest level down; empty accumulator gives the zero
hash. -/
def RootSpec (H : HF) (a : Acc) : Hash32 :=
  match occupiedDesc a with
  | [] => zeroHash
  | p :: rest => specFold H ⟨p.start, p.count, p.sum⟩ rest

/-- The running fold value over a clean (contiguous so far) prefix of the
occupied peaks, `none` on an empty prefix or an earlier violation. -/
def foldAccGo (H : HF) : RNode → List Node → Option RNode
  | acc, [] => some acc
  | acc, q :: rest =>
    if (acc.start + acc.count) % U64 ≠ q.start then none
    else foldAccGo H (combineR H acc q) rest

def foldAcc (H : HF) : List Node → Option RNode
  | [] => none
  | p :: rest => foldAccGo H ⟨p.start, p.count, p.sum⟩ rest

/-- A concrete injective-leaning test hash: the bytes are read as base-257
digits (so distinct byte lists below 2^256 get distinct digests). -/
def testH : HF := fun l =>
  mkHash (leBytes 32 ((l.foldl (fun a b => a * 257 + b % 256 + 1) 0) % 2 ^ 256))

/-- A concrete block hash whose first byte is `i`. -/
def hx (i : Nat) : Hash32 := ⟨i :: List.replicate 31 0, by simp⟩

/-- A truncated snapshot: version byte, matching blockMerge, enforce
flag 0, and nothing else. -/
def c1snap : List Nat := [tagSnapshotV1] ++ leBytes 4 200 ++ [0]

def c1b : Builder := NewBuilder ⟨200, some 7⟩

/-- A forged snapshot for an empty builder that declares 200 peak slots
(beyond any reasonable ceiling) and supplies 200 absent-slot flags. -/
def c2snap : List Nat :=
  [tagSnapshotV1] ++ leBytes 4 200 ++ [0] ++ leBytes 8 0 ++ leBytes 8 0
    ++ leBytes 4 0 ++ leBytes 8 0 ++ leBytes 4 200 ++ List.replicate 200 0

/-- C7: for a builder in strict mode and a non-empty batch whose start
height differs from the builder's `expectedNextHeight`, `Push` returns
accepted = 0 with an unexpected-start error, and the builder is
unchanged. -/
theorem C7_strict_wrong_start (H : HF) (b : Builder) (s : Nat) (hs : List Hash32)
    (henf : b.enforceHeights = true) (hne : hs ≠ [])
    (hlt : s < U64) (hneq : s ≠ b.expectedNextHeight) :
    Push H b s hs = (0, some .unexpectedStart, b) := by
  unfold Push
  rw [if_neg (by simpa using hne),
    if_pos (⟨henf, by rwa [Nat.mod_eq_of_lt hlt]⟩ :
      b.enforceHeights = true ∧ s % U64 ≠ b.expectedNextHeight)]

theorem C7_strict_wrong_start_witness :
    Push testH (NewBuilder ⟨4, some 100⟩) 105 [hx 1] =
      (0, some .unexpectedStart, NewBuilder ⟨4, some 100⟩) :=
  C7_strict_wrong_start testH (NewBuilder ⟨4, some 100⟩) 105 [hx 1]
    (by decide) (by decide) (by decide) (by decide)

/-- C1 counterexample: restoring a truncated snapshot (valid version,
matching blockMerge, enforce flag 0, then end of data) into a
strict-mode builder fails, yet flips `enforceHeights` — the failing
restore leaves the builder partially modified. -/
theorem C1_restore_not_atomic :
    (Restore c1b c1snap).1.isSome = true ∧
    (Restore c1b c1snap).2.enforceHeights ≠ c1b.enforceHeights := by decide

/-- C1 amended: a restore that fails at or before the enforce-flag byte —
in particular on a snapshot of at most 5 bytes, on a wrong version byte,
or on a blockMerge mismatch — returns an error and leaves the builder
unchanged; only later failures can leave partial modifications. -/
theorem C1_early_fail_unchanged (b : Builder) (snap : List Nat)
    (h : snap.length ≤ 5 ∨ snap.head? ≠ some tagSnapshotV1 ∨
      fromLE ((snap.drop 1).take 4 ++ List.replicate (4 - (snap.length - 1)) 0)
        ≠ b.blockMerge) :
    (Restore b snap).1.isSome = true ∧ (Restore b snap).2 = b := by
  match snap, h with
  | [], _ => exact ⟨rfl, rfl⟩
  | a :: rest, h =>
    unfold Restore
    have e1 : readByte ⟨a :: rest, 0⟩ = some (a, ⟨a :: rest, 1⟩) := by
      unfold readByte
      rw [if_pos (by simp)]
      rfl
    simp only [e1]
    by_cases hver : a = tagSnapshotV1
    · rw [if_neg (not_not_intro hver)]
      by_cases hnil : rest = []
      · subst hnil
        have e2 : readU32 ⟨[a], 1⟩ = none := by
          unfold readU32 readBytes
          rw [if_neg (by simp)]
          rfl
        simp only [e2]
        exact ⟨by trivial, by trivial⟩
      · have hlp : 1 < (a :: rest).length := by
          cases rest with
          | nil => exact absurd rfl hnil
          | cons c cs => simp
        have e2 : readU32 ⟨a :: rest, 1⟩ =
            some (fromLE (((a :: rest).drop 1).take 4 ++
                List.replicate (4 - ((a :: rest).length - 1)) 0),
              ⟨a :: rest, 1 + min 4 ((a :: rest).length - 1)⟩) := by
          unfold readU32 readBytes
          rw [if_pos hlp]
          rfl
        simp only [e2]
        by_cases hbm : fromLE (((a :: rest).drop 1).take 4 ++
            List.replicate (4 - ((a :: rest).length - 1)) 0) = b.blockMerge
        · rw [if_neg (not_not_intro hbm)]
          have hl5 : (a :: rest).length ≤ 5 := by
            rcases h with h | h | h
            · exact h
            · exact absurd (by simp [hver]) h
            · simp only [List.drop_one, List.length_cons] at hbm ⊢
              exact absurd (by simpa using hbm) h
          have e3 : readByte ⟨a :: rest, 1 + min 4 ((a :: rest).length - 1)⟩ = none := by
            unfold readByte
            rw [if_neg (by simp only [List.length_cons] at hl5 ⊢; omega)]
          simp only [e3]
          exact ⟨by trivial, by trivial⟩
        · rw [if_pos hbm]
          exact ⟨rfl, rfl⟩
    · rw [if_pos hver]
      exact ⟨rfl, rfl⟩

theorem C1_early_fail_unchanged_witness :
    ((NewBuilder ⟨200, none⟩).blockMerge ≠
      fromLE (([0xFF, 1, 2].drop 1).take 4 ++
        List.replicate (4 - ([0xFF, 1, 2].length - 1)) 0) ∨ True) ∧
    (Restore (NewBuilder ⟨200, none⟩) [0xFF, 1, 2]).1.isSome = true ∧
    (Restore (NewBuilder ⟨200, none⟩) [0xFF, 1, 2]).2 = NewBuilder ⟨200, none⟩ :=
  ⟨Or.inr trivial,
    C1_early_fail_unchanged (NewBuilder ⟨200, none⟩) [0xFF, 1, 2] (by decide)⟩

/-- C2 is a code bug: `peaksAccumulator.Decode` reads the declared
`peakCount` and builds the peaks array of exactly that size with no
ceiling check, so a forged snapshot declaring 200 peak slots (with
matching padding) restores without any error — no snapshot-bounds error
is ever produced for an oversized `peakCount`. -/
theorem C2_no_peakCount_ceiling :
    (Restore (NewBuilder ⟨200, none⟩) c2snap).1 = none ∧
    (Restore (NewBuilder ⟨200, none⟩) c2snap).2.outer.peaks.length = 200 := by
  set_option maxRecDepth 4000 in decide

/-- C9 counterexample: lax mode with blockMerge = 1 — the in-chunk buffer
is empty when the element at the arbitrary start height 5 is ingested,
yet `Push` returns an error (the chunk it completes commits
non-contiguously against the level-0 peak), so a gapped lax history is
not accepted silently. -/
theorem C9_gap_commit_fails :
    (Push testH (Push testH (NewBuilder ⟨1, none⟩) 0 [hx 1]).2.2 5 [hx 2]).2.1 =
      some .nonContigCombine ∧
    (Push testH (NewBuilder ⟨1, none⟩) 0 [hx 1]).2.2.inChunkElems = [] ∧
    (Push testH (NewBuilder ⟨1, none⟩) 0 [hx 1]).2.2.enforceHeights = false := by decide

/-- C9 amended: in lax mode, when the in-chunk buffer is empty at ingest,
the element is accepted for any start height and `inChunkStart` is set to
that height with no cross-chunk check at ingest time; the push itself
returns without error provided the element does not complete the chunk
(with blockMerge ≥ 2 here) — a later commit of that chunk may still fail
against the committed peaks. -/
theorem C9_lax_fresh_chunk (H : HF) (b : Builder) (h : Nat) (x : Hash32)
    (hlax : b.enforceHeights = false) (hempty : b.inChunkElems = [])
    (hB : 2 ≤ b.blockMerge) :
    Push H b h [x] =
      (1, none,
        { b with
          inChunkElems := [elemDigest H (h % U64) x],
          inChunkStart := h % U64,
          totalBlocks := (b.totalBlocks + 1) % U64 }) := by
  have hmm : (h % U64 + 0) % U64 = h % U64 := by
    rw [Nat.add_zero]
    exact Nat.mod_mod_of_dvd h dvd_rfl
  unfold Push
  rw [if_neg (by simp)]
  rw [if_neg (by rw [hlax]; simp)]
  unfold pushLoop
  simp only [hlax, hempty, Bool.false_eq_true, if_false, List.isEmpty_nil, not_true,
    false_and, ite_true, ite_false, hmm]
  unfold ingest
  simp only [hlax, Bool.false_eq_true, if_false, List.nil_append, List.length_cons,
    List.length_nil, zero_add]
  rw [if_neg (by omega)]
  unfold pushLoop
  rfl

theorem Root_single (H : HF) (n : Node) (lc : Nat) : Root H ⟨[some n], lc⟩ = n.sum := by
  simp [Root, rootLoop]

theorem commit_from_empty_peaks (H : HF) (b : Builder)
    (hne : ¬ b.inChunkElems.isEmpty) (hpeaks : b.outer.peaks = []) :
    commitCurrentChunk H b =
      (none,
        { b with
          inChunkElems := [], inChunkStart := 0,
          outer :=
            ⟨[some (.leaf b.inChunkStart (b.inChunkElems.length % U32)
                (chunkDigest H b.inChunkStart (b.inChunkElems.length % U32)
                  b.inChunkElems))],
              (b.outer.leafCount + 1) % U64⟩ }) := by
  unfold commitCurrentChunk
  rw [if_neg hne]
  simp only [AddLeaf, hpeaks, addLoop]

theorem elemsFrom_eq_zipMap (H : HF) (s : Nat) :
    ∀ (l : List Hash32) (i : Nat),
      elemsFrom H s i l =
        ((List.range l.length).zip l).map
          (fun p => elemDigest H ((s + i + p.1) % U64) p.2)
  | [], _ => by simp [elemsFrom]
  | x :: xs, i => by
    rw [elemsFrom, List.length_cons, List.range_succ_eq_map]
    simp only [List.zip_cons_cons, List.map_cons, Nat.add_zero]
    refine congrArg₂ List.cons rfl ?_
    rw [elemsFrom_eq_zipMap H s xs (i + 1), List.zip_map_left, List.map_map]
    apply List.map_congr_left
    intro p _
    simp only [Function.comp_apply, Prod.map_fst, Prod.map_snd, id_eq]
    have : s + i + (p.1 + 1) = s + (i + 1) + p.1 := by omega
    cases p with
    | mk j y => simp only [Prod.map]; rw [show s + i + (j + 1) = s + (i + 1) + j by omega]

/-- The single-chunk push loop: pushing `l` after `i` already buffered
elements of a chunk that started at `s`, with no committed chunks yet
and total size at most one chunk, accepts everything and finalizes to
the direct chunk digest of all the buffered element digests. -/
theorem pushLoop_single_chunk (H : HF) (s : Nat) (hsU : s < U64) :
    ∀ (l : List Hash32) (i : Nat) (b : Builder),
      b.enforceHeights = false →
      b.inChunkElems.length = i →
      (0 < i → b.inChunkStart = s) →
      0 < i + l.length →
      b.outer.peaks = [] →
      i + l.length ≤ b.blockMerge →
      (pushLoop H s l i b).1 = l.length ∧
      (pushLoop H s l i b).2.1 = none ∧
      (Finalize H (pushLoop H s l i b).2.2).1 = none ∧
      (Finalize H (pushLoop H s l i b).2.2).2.1 =
        chunkDigest H s ((i + l.length) % U32) (b.inChunkElems ++ elemsFrom H s i l)
  | [], i, b, hlax, hlen, hstart, hpos, hpeaks, hcap => by
    have hi : 0 < i := by simpa using hpos
    have hne : ¬ b.inChunkElems.isEmpty = true := by
      rw [List.isEmpty_iff]
      intro hnil
      rw [hnil] at hlen
      simp at hlen
      omega
    have hcommit := commit_from_empty_peaks H b hne hpeaks
    refine ⟨rfl, rfl, ?_, ?_⟩
    · show (Finalize H b).1 = none
      unfold Finalize
      rw [if_neg hne]
      simp only [hcommit]
    · show (Finalize H b).2.1 = _
      unfold Finalize
      rw [if_neg hne]
      simp only [hcommit, Root_single, Node.sum]
      rw [hstart hi, hlen]
      simp [elemsFrom]
  | x :: xs, i, b, hlax, hlen, hstart, hpos, hpeaks, hcap => by
    obtain ⟨bm, be, ben, bel, bst, ⟨bop, bolc⟩, bt⟩ := b
    simp only at hlax hlen hstart hpeaks hcap hpos
    subst hlax
    subst hpeaks
    cases bel with
    | nil =>
      have hi0 : i = 0 := by simpa using hlen.symm
      subst hi0
      simp only [pushLoop, ingest, List.isEmpty_nil, not_true, false_and, if_false,
        ite_true, ite_false, Bool.false_eq_true, List.nil_append, Nat.add_zero,
        Nat.mod_eq_of_lt hsU, List.length_singleton, List.length_cons, List.length_nil,
        Nat.zero_add]
      by_cases hfull : (1 : Nat) = bm
      · have hxs : xs = [] := by
          rw [← List.length_eq_zero]
          simp only [List.length_cons, Nat.zero_add] at hcap
          omega
        subst hxs
        rw [if_pos hfull]
        have hcommit := commit_from_empty_peaks H
          ⟨bm, false, ben, [elemDigest H s x], s, ⟨[], bolc⟩, (bt + 1) % U64⟩
          (by simp) rfl
        simp only at hcommit
        simp only [hcommit, pushLoop]
        refine ⟨by trivial, by trivial, ?_, ?_⟩
        · simp [Finalize]
        · show (Finalize H _).2.1 = _
          simp only [Finalize, List.isEmpty_nil, ite_true, if_true, Root_single,
            Node.sum]
          simp [elemsFrom, Nat.mod_eq_of_lt hsU]
      · rw [if_neg hfull]
        have hrec := pushLoop_single_chunk H s hsU xs 1
          ⟨bm, false, ben, [elemDigest H s x], s, ⟨[], bolc⟩, (bt + 1) % U64⟩
          rfl (by simp) (fun _ => rfl) (by simp)
          rfl (by simp only [List.length_cons, Nat.zero_add] at hcap ⊢; omega)
        refine ⟨?_, hrec.2.1, hrec.2.2.1, ?_⟩
        · show 1 + _ = _
          rw [hrec.1]
          simp [Nat.add_comm]
        · show (Finalize H _).2.1 = _
          rw [hrec.2.2.2]
          have hc : 1 + xs.length = 0 + (x :: xs).length := by
            simp only [List.length_cons, Nat.zero_add]
            omega
          rw [hc]
          simp [elemsFrom, Nat.mod_eq_of_lt hsU]
    | cons y ys =>
      have hi : 0 < i := by simp only [List.length_cons] at hlen; omega
      have hbst : bst = s := hstart hi
      subst hbst
      simp only [pushLoop, ingest, List.isEmpty_cons, Bool.false_eq_true,
        not_false_iff, true_and, hlen, ne_eq, not_true, if_false, ite_true, ite_false,
        List.length_append, List.length_singleton]
      by_cases hfull : i + 1 = bm
      · have hxs : xs = [] := by
          rw [← List.length_eq_zero]
          simp only [List.length_cons] at hcap
          omega
        subst hxs
        rw [if_pos hfull]
        have hcommit := commit_from_empty_peaks H
          ⟨bm, false, ben, (y :: ys) ++ [elemDigest H ((bst + i) % U64) x], bst,
            ⟨[], bolc⟩, (bt + 1) % U64⟩
          (by simp [List.isEmpty_iff]) rfl
        simp only at hcommit
        simp only [hcommit, pushLoop]
        refine ⟨by trivial, by trivial, ?_, ?_⟩
        · simp [Finalize]
        · show (Finalize H _).2.1 = _
          simp only [Finalize, List.isEmpty_nil, ite_true, if_true, Root_single,
            Node.sum]
          simp only [List.length_append, List.length_singleton, hlen, elemsFrom,
            List.length_cons]
      · rw [if_neg hfull]
        have hrec := pushLoop_single_chunk H bst hsU xs (i + 1)
          ⟨bm, false, ben, (y :: ys) ++ [elemDigest H ((bst + i) % U64) x], bst,
            ⟨[], bolc⟩, (bt + 1) % U64⟩
          rfl (by simp only [List.length_append, List.length_singleton, hlen])
          (fun _ => rfl) (by omega)
          rfl (by simp only [List.length_cons] at hcap ⊢; omega)
        refine ⟨?_, hrec.2.1, hrec.2.2.1, ?_⟩
        · show 1 + _ = _
          rw [hrec.1]
          simp [Nat.add_comm]
        · show (Finalize H _).2.1 = _
          rw [hrec.2.2.2]
          have hc : i + 1 + xs.length = i + (x :: xs).length := by
            simp only [List.length_cons]
            omega
          rw [hc]
          simp [elemsFrom, List.append_assoc]

/-- C4: for every hash factory `H`, start height `h`, and non-empty batch
of at most `blockMerge` block hashes, a fresh builder (blockMerge `B`)
that pushes exactly that one batch at `h` and then finalizes returns the
same digest as the stateless `ComputeChunkDigest H h hashes`, with no
error anywhere. -/
theorem C4_chunk_digest_consistency (H : HF) (B : Int) (h : Nat) (hs : List Hash32)
    (hB : 0 < B) (hne : hs ≠ []) (hlen : hs.length ≤ B.toNat) :
    (Push H (NewBuilder ⟨B, none⟩) h hs).2.1 = none ∧
    (Finalize H (Push H (NewBuilder ⟨B, none⟩) h hs).2.2).1 = none ∧
    (Finalize H (Push H (NewBuilder ⟨B, none⟩) h hs).2.2).2.1 =
      ComputeChunkDigest H h hs := by
  have hsU : h % U64 < U64 := Nat.mod_lt _ (by norm_num [U64])
  have hrec := pushLoop_single_chunk H (h % U64) hsU hs 0 (NewBuilder ⟨B, none⟩)
    rfl rfl (fun hq => absurd hq (lt_irrefl 0))
    (by simpa using List.length_pos.mpr hne)
    rfl
    (by
      show 0 + hs.length ≤ (NewBuilder ⟨B, none⟩).blockMerge
      simp only [NewBuilder]
      rw [if_neg (not_le.mpr hB)]
      simpa using hlen)
  have hpush : Push H (NewBuilder ⟨B, none⟩) h hs =
      pushLoop H (h % U64) hs 0 (NewBuilder ⟨B, none⟩) := by
    unfold Push
    rw [if_neg (by simpa using hne), if_neg (by simp [NewBuilder])]
  refine ⟨?_, ?_, ?_⟩
  · rw [hpush]
    exact hrec.2.1
  · rw [hpush]
    exact hrec.2.2.1
  · rw [hpush, hrec.2.2.2]
    simp only [ComputeChunkDigest]
    rw [if_neg (by simpa using hne)]
    rw [elemsFrom_eq_zipMap]
    simp [Nat.add_zero, Nat.zero_add, NewBuilder]

theorem commit_fields (H : HF) (b : Builder) :
    (commitCurrentChunk H b).2.enforceHeights = b.enforceHeights ∧
    (commitCurrentChunk H b).2.blockMerge = b.blockMerge ∧
    (commitCurrentChunk H b).2.expectedNextHeight = b.expectedNextHeight := by
  unfold commitCurrentChunk
  split
  · exact ⟨rfl, rfl, rfl⟩
  · rcases hA : AddLeaf H b.outer (.leaf b.inChunkStart (b.inChunkElems.length % U32)
        (chunkDigest H b.inChunkStart (b.inChunkElems.length % U32) b.inChunkElems))
      with ⟨e, a2⟩
    cases e <;> simp only [hA] <;> exact ⟨by trivial, by trivial, by trivial⟩

theorem setStart_fields (b : Builder) (c : Prop) [Decidable c] (v : Nat) :
    (if c then { b with inChunkStart := v } else b).enforceHeights = b.enforceHeights ∧
    (if c then { b with inChunkStart := v } else b).blockMerge = b.blockMerge ∧
    (if c then { b with inChunkStart := v } else b).expectedNextHeight =
      b.expectedNextHeight := by
  split <;> exact ⟨rfl, rfl, rfl⟩

/-- Fields of the builder that the push loop never changes (`enforceHeights`,
`blockMerge`), and how `expectedNextHeight` advances on a successful
non-empty push. -/
theorem pushLoop_fields (H : HF) (s : Nat) :
    ∀ (l : List Hash32) (i : Nat) (b : Builder),
      (pushLoop H s l i b).2.2.enforceHeights = b.enforceHeights ∧
      (pushLoop H s l i b).2.2.blockMerge = b.blockMerge ∧
      ((pushLoop H s l i b).2.1 = none → l ≠ [] →
        (pushLoop H s l i b).2.2.expectedNextHeight =
          (if b.enforceHeights = true then (b.expectedNextHeight + l.length) % U64
            else b.expectedNextHeight))
  | [], i, b => ⟨rfl, rfl, fun _ h => absurd rfl h⟩
  | x :: xs, i, b => by
    simp only [pushLoop]
    generalize (if b.enforceHeights = true then b.expectedNextHeight
      else (s + i) % U64) = hh
    split
    next => exact ⟨rfl, rfl, fun h => Option.noConfusion h⟩
    next hc =>
      generalize hb1 : (if b.inChunkElems.isEmpty = true
        then { b with inChunkStart := hh } else b) = b1
      have hb1e : b1.enforceHeights = b.enforceHeights := by
        rw [← hb1]
        exact (setStart_fields b _ hh).1
      have hb1m : b1.blockMerge = b.blockMerge := by
        rw [← hb1]
        exact (setStart_fields b _ hh).2.1
      have hb1x : b1.expectedNextHeight = b.expectedNextHeight := by
        rw [← hb1]
        exact (setStart_fields b _ hh).2.2
      have hge : (ingest H b1 hh x).enforceHeights = b.enforceHeights := hb1e
      have hgm : (ingest H b1 hh x).blockMerge = b.blockMerge := hb1m
      have hgx : (ingest H b1 hh x).expectedNextHeight =
          (if b.enforceHeights = true then (b.expectedNextHeight + 1) % U64
            else b.expectedNextHeight) := by
        show (if b1.enforceHeights = true then (b1.expectedNextHeight + 1) % U64
          else b1.expectedNextHeight) = _
        rw [hb1e, hb1x]
      generalize hb2 : ingest H b1 hh x = b2
      rw [hb2] at hge hgm hgx
      split
      next hfull =>
        split
        next e b3 heq =>
          have h2 : b3 = (commitCurrentChunk H b2).2 := by rw [heq]
          refine ⟨?_, ?_, fun h => Option.noConfusion h⟩
          · show b3.enforceHeights = _
            rw [h2, (commit_fields H b2).1, hge]
          · show b3.blockMerge = _
            rw [h2, (commit_fields H b2).2.1, hgm]
        next b3 heq =>
          have h2 : b3 = (commitCurrentChunk H b2).2 := by rw [heq]
          have hb3e : b3.enforceHeights = b.enforceHeights := by
            rw [h2, (commit_fields H b2).1, hge]
          have hb3m : b3.blockMerge = b.blockMerge := by
            rw [h2, (commit_fields H b2).2.1, hgm]
          have hb3x : b3.expectedNextHeight =
              (if b.enforceHeights = true then (b.expectedNextHeight + 1) % U64
                else b.expectedNextHeight) := by
            rw [h2, (commit_fields H b2).2.2, hgx]
          have IH := pushLoop_fields H s xs (i + 1) b3
          refine ⟨IH.1.trans hb3e, IH.2.1.trans hb3m, fun h _ => ?_⟩
          cases xs with
          | nil =>
            show b3.expectedNextHeight = _
            rw [hb3x]
            split
            next => simp
            next => rfl
          | cons y ys =>
            have h3 : (pushLoop H s (y :: ys) (i + 1) b3).2.1 = none := h
            rw [IH.2.2 h3 (by simp), hb3e, hb3x]
            split
            next =>
              rw [Nat.mod_add_mod]
              simp only [List.length_cons]
              congr 1
              omega
            next => rfl
      next hfull =>
        have IH := pushLoop_fields H s xs (i + 1) b2
        refine ⟨IH.1.trans hge, IH.2.1.trans hgm, fun h _ => ?_⟩
        cases xs with
        | nil =>
          show b2.expectedNextHeight = _
          rw [hgx]
          split
          next => simp
          next => rfl
        | cons y ys =>
          rw [IH.2.2 h (by simp), hge, hgx]
          split
          next =>
            rw [Nat.mod_add_mod]
            simp only [List.length_cons]
            congr 1
            omega
          next => rfl

/-- Shifting the batch start and in-batch index together (mod 2^64) does
not change the push loop: element heights only depend on
`(s + index) % 2^64`. -/
theorem pushLoop_shift (H : HF) (s s' : Nat) :
    ∀ (l : List Hash32) (i i' : Nat) (b : Builder),
      (s + i) % U64 = (s' + i') % U64 →
      pushLoop H s l i b = pushLoop H s' l i' b
  | [], _, _, _, _ => rfl
  | x :: xs, i, i', b, hmod => by
    have hnext : (s + (i + 1)) % U64 = (s' + (i' + 1)) % U64 := by
      have h1 : (s + (i + 1)) % U64 = ((s + i) % U64 + 1) % U64 := by
        rw [Nat.mod_add_mod, ← Nat.add_assoc]
      have h2 : (s' + (i' + 1)) % U64 = ((s' + i') % U64 + 1) % U64 := by
        rw [Nat.mod_add_mod, ← Nat.add_assoc]
      rw [h1, h2, hmod]
    have hrec : ∀ bb, pushLoop H s xs (i + 1) bb = pushLoop H s' xs (i' + 1) bb :=
      fun bb => pushLoop_shift H s s' xs (i + 1) (i' + 1) bb hnext
    simp only [pushLoop, hmod, hrec]

/-- Decomposition of one push-loop pass over a concatenated batch into the
pass over the first part followed (on success) by the pass over the
second part. -/
theorem pushLoop_split (H : HF) (s : Nat) :
    ∀ (xs ys : List Hash32) (i : Nat) (b : Builder),
      pushLoop H s (xs ++ ys) i b =
        (match pushLoop H s xs i b with
          | (n, some e, b') => (n, some e, b')
          | (n, none, b') =>
            (n + (pushLoop H s ys (i + xs.length) b').1,
              (pushLoop H s ys (i + xs.length) b').2.1,
              (pushLoop H s ys (i + xs.length) b').2.2))
  | [], ys, i, b => by
    simp only [List.nil_append, pushLoop, List.length_nil, Nat.zero_add, Nat.add_zero]
  | x :: xs, ys, i, b => by
    simp only [List.cons_append, pushLoop, List.append_eq]
    generalize (if b.enforceHeights = true then b.expectedNextHeight
      else (s + i) % U64) = hh
    split
    next => rfl
    next hc =>
      generalize hb2 : ingest H (if b.inChunkElems.isEmpty = true
        then { b with inChunkStart := hh } else b) hh x = b2
      split
      next hfull =>
        split
        next e b3 heq => rfl
        next b3 heq =>
          rw [pushLoop_split H s xs ys (i + 1) b3]
          rcases hp : pushLoop H s xs (i + 1) b3 with ⟨n1, e1, b4⟩
          cases e1 with
          | none =>
            simp only [hp, List.length_cons]
            have hidx : i + 1 + xs.length = i + (xs.length + 1) := by omega
            rw [hidx]
            have hadd : ∀ m : Nat, 1 + (n1 + m) = 1 + n1 + m := fun m => by omega
            rw [hadd]
          | some e => simp only [hp]
      next hfull =>
        rw [pushLoop_split H s xs ys (i + 1) b2]
        rcases hp : pushLoop H s xs (i + 1) b2 with ⟨n1, e1, b4⟩
        cases e1 with
        | none =>
          simp only [hp, List.length_cons]
          have hidx : i + 1 + xs.length = i + (xs.length + 1) := by omega
          rw [hidx]
          have hadd : ∀ m : Nat, 1 + (n1 + m) = 1 + n1 + m := fun m => by omega
          rw [hadd]
        | some e => simp only [hp]

/-- C5: the final builder (and hence the root) depends only on the full
ordered sequence of (height, hash) pairs: whenever pushing the whole
sequence as one batch succeeds, pushing it as any list of contiguous
sub-batches, each at its correct start height, yields the same builder
and the same `Finalize` root. -/
theorem C5_order_invariance (H : HF) :
    ∀ (parts : List (List Hash32)) (b : Builder) (s : Nat),
      (Push H b s parts.flatten).2.1 = none →
      pushSeq H b s parts = (none, (Push H b s parts.flatten).2.2) ∧
      (Finalize H (pushSeq H b s parts).2).2.1 =
        (Finalize H (Push H b s parts.flatten).2.2).2.1
  | [], b, s, hok => ⟨rfl, rfl⟩
  | [] :: rest, b, s, hok => C5_order_invariance H rest b s hok
  | (z :: zs) :: rest, b, s, hok => by
    by_cases hcond : b.enforceHeights = true ∧ s % U64 ≠ b.expectedNextHeight
    · exfalso
      have hbad : (Push H b s ((z :: zs) :: rest).flatten).2.1 =
          some .unexpectedStart := by
        unfold Push
        rw [if_neg (by simp [List.flatten_cons]), if_pos hcond]
      rw [hbad] at hok
      exact Option.noConfusion hok
    · have hPushP : Push H b s (z :: zs) = pushLoop H (s % U64) (z :: zs) 0 b := by
        unfold Push
        rw [if_neg (by simp), if_neg hcond]
      have hPushAll : Push H b s ((z :: zs) :: rest).flatten =
          pushLoop H (s % U64) ((z :: zs) ++ rest.flatten) 0 b := by
        unfold Push
        rw [if_neg (by simp [List.flatten_cons]), if_neg hcond, List.flatten_cons]
      have hsplit := pushLoop_split H (s % U64) (z :: zs) rest.flatten 0 b
      rcases hp : pushLoop H (s % U64) (z :: zs) 0 b with ⟨n1, e1, b1⟩
      simp only [hp] at hsplit
      cases e1 with
      | some e =>
        exfalso
        rw [hPushAll, hsplit] at hok
        exact Option.noConfusion hok
      | none =>
        have hb1 : (pushLoop H (s % U64) (z :: zs) 0 b).2.2 = b1 := by rw [hp]
        have hb1e : b1.enforceHeights = b.enforceHeights := by
          rw [← hb1]
          exact (pushLoop_fields H (s % U64) (z :: zs) 0 b).1
        have hno : (pushLoop H (s % U64) (z :: zs) 0 b).2.1 = none := by rw [hp]
        have hb1x := (pushLoop_fields H (s % U64) (z :: zs) 0 b).2.2 hno (by simp)
        rw [hp] at hb1x
        have hPR : Push H b1 (s + (z :: zs).length) rest.flatten =
            pushLoop H (s % U64) rest.flatten (0 + (z :: zs).length) b1 := by
          cases hrf : rest.flatten with
          | nil => rfl
          | cons w ws =>
            unfold Push
            rw [if_neg (by simp)]
            rw [if_neg ?hcnd]
            case hcnd =>
              rintro ⟨h1, h2⟩
              apply h2
              have hbe : b.enforceHeights = true := hb1e ▸ h1
              have hse : s % U64 = b.expectedNextHeight := by
                by_contra hne
                exact hcond ⟨hbe, hne⟩
              show (s + (z :: zs).length) % U64 = b1.expectedNextHeight
              rw [hb1x]
              simp only [hbe, if_true]
              rw [← hse, Nat.mod_add_mod]
            exact pushLoop_shift H ((s + (z :: zs).length) % U64) (s % U64)
              (w :: ws) 0 (0 + (z :: zs).length) b1 (by
                rw [Nat.add_zero, Nat.mod_mod_of_dvd _ dvd_rfl, Nat.zero_add,
                  Nat.mod_add_mod])
        rw [hPushAll, hsplit] at hok
        have hok2 : (Push H b1 (s + (z :: zs).length) rest.flatten).2.1 = none := by
          rw [hPR]
          exact hok
        have IH := C5_order_invariance H rest b1 (s + (z :: zs).length) hok2
        have hmain : pushSeq H b s ((z :: zs) :: rest) =
            (none, (Push H b s ((z :: zs) :: rest).flatten).2.2) := by
          show (match Push H b s (z :: zs) with
            | (_, some e, b') => (some e, b')
            | (_, none, b') => pushSeq H b' (s + (z :: zs).length) rest) = _
          rw [hPushP, hp]
          show pushSeq H b1 (s + (z :: zs).length) rest = _
          rw [IH.1, hPR, hPushAll, hsplit]
        exact ⟨hmain, by rw [hmain]⟩

theorem rootLoop_filterMap (H : HF) :
    ∀ (l : List (Option Node)) (acc : RNode),
      rootLoop H l (some acc) = specFold H acc (l.filterMap id)
  | [], _ => rfl
  | none :: rest, acc => by
    simp only [rootLoop, List.filterMap_cons, id]
    exact rootLoop_filterMap H rest acc
  | some p :: rest, acc => by
    simp only [rootLoop, List.filterMap_cons, id, specFold]
    by_cases hct : (acc.start + acc.count) % U64 ≠ p.start
    · rw [if_pos hct, if_pos hct]
    · rw [if_neg hct, if_neg hct]
      exact rootLoop_filterMap H rest (combineR H acc p)

theorem rootLoop_none_filterMap (H : HF) :
    ∀ l : List (Option Node),
      rootLoop H l none =
        (match l.filterMap id with
          | [] => zeroHash
          | p :: rest => specFold H ⟨p.start, p.count, p.sum⟩ rest)
  | [] => rfl
  | none :: rest => by
    simp only [rootLoop, List.filterMap_cons]
    exact rootLoop_none_filterMap H rest
  | some p :: rest => by
    simp only [rootLoop, List.filterMap_cons]
    exact rootLoop_filterMap H rest ⟨p.start, p.count, p.sum⟩

theorem Root_eq_RootSpec (H : HF) (a : Acc) : Root H a = RootSpec H a := by
  unfold Root RootSpec occupiedDesc
  rw [rootLoop_none_filterMap]

theorem specFold_append (H : HF) :
    ∀ (pre : List Node) (acc acc' : RNode),
      foldAccGo H acc pre = some acc' →
      ∀ l : List Node, specFold H acc (pre ++ l) = specFold H acc' l
  | [], acc, acc', h, l => by
    cases h
    rfl
  | q :: pre', acc, acc', h, l => by
    unfold foldAccGo at h
    split at h
    · exact Option.noConfusion h
    · next hct =>
      simp only [List.cons_append, specFold]
      rw [if_neg hct]
      exact specFold_append H pre' _ acc' h l

/-- C6: `Root` folds the occupied peaks from the highest level down to
level 0, left-to-right, with the accumulated fold as the left operand of
the combiner (the claim-level `RootSpec`); an empty accumulator gives the
zero hash, a single occupied peak gives that peak's digest unchanged, and
a non-contiguous adjacent pair in fold order gives the zero hash. -/
theorem C6_root_fold (H : HF) :
    (∀ a : Acc, Root H a = RootSpec H a) ∧
    (∀ a : Acc, occupiedDesc a = [] → Root H a = zeroHash) ∧
    (∀ (a : Acc) (p : Node), occupiedDesc a = [p] → Root H a = p.sum) ∧
    (∀ (a : Acc) (pre : List Node) (q : Node) (rest : List Node) (acc : RNode),
      occupiedDesc a = pre ++ q :: rest →
      foldAcc H pre = some acc →
      (acc.start + acc.count) % U64 ≠ q.start →
      Root H a = zeroHash) := by
  refine ⟨Root_eq_RootSpec H, ?_, ?_, ?_⟩
  · intro a h
    rw [Root_eq_RootSpec H a]
    unfold RootSpec
    rw [h]
  · intro a p h
    rw [Root_eq_RootSpec H a]
    unfold RootSpec
    rw [h]
    rfl
  · intro a pre q rest acc hocc hfold hct
    rw [Root_eq_RootSpec H a]
    unfold RootSpec
    rw [hocc]
    cases pre with
    | nil => exact Option.noConfusion hfold
    | cons p pre' =>
      show specFold H ⟨p.start, p.count, p.sum⟩ (pre' ++ q :: rest) = zeroHash
      rw [specFold_append H pre' ⟨p.start, p.count, p.sum⟩ acc hfold (q :: rest)]
      unfold specFold
      rw [if_pos hct]

theorem C6_root_fold_witness :
    Root testH ⟨[some (.leaf 5 2 (hx 7))], 1⟩ = (Node.leaf 5 2 (hx 7)).sum ∧
    Root testH ⟨[some (.leaf 100 1 (hx 1)), some (.leaf 0 1 (hx 2))], 2⟩ = zeroHash :=
  ⟨(C6_root_fold testH).2.2.1 ⟨[some (.leaf 5 2 (hx 7))], 1⟩ (.leaf 5 2 (hx 7))
      (by decide),
    (C6_root_fold testH).2.2.2 ⟨[some (.leaf 100 1 (hx 1)), some (.leaf 0 1 (hx 2))], 2⟩
      [.leaf 0 1 (hx 2)] (.leaf 100 1 (hx 1)) [] ⟨0, 1, hx 2⟩
      (by decide) (by decide) (by decide)⟩

theorem C5_order_invariance_witness :
    pushSeq testH (NewBuilder ⟨2, none⟩) 0 [[hx 1, hx 2], [hx 3]] =
      (none, (Push testH (NewBuilder ⟨2, none⟩) 0
        ([[hx 1, hx 2], [hx 3]] : List (List Hash32)).flatten).2.2) ∧
    (Finalize testH
        (pushSeq testH (NewBuilder ⟨2, none⟩) 0 [[hx 1, hx 2], [hx 3]]).2).2.1 =
      (Finalize testH (Push testH (NewBuilder ⟨2, none⟩) 0
        ([[hx 1, hx 2], [hx 3]] : List (List Hash32)).flatten).2.2).2.1 :=
  C5_order_invariance testH [[hx 1, hx 2], [hx 3]] (NewBuilder ⟨2, none⟩) 0 (by decide)

theorem C4_chunk_digest_consistency_witness :
    ((Push testH (NewBuilder ⟨5, none⟩) 100 [hx 1, hx 2, hx 3]).2.1 = none ∧
      (Finalize testH (Push testH (NewBuilder ⟨5, none⟩) 100 [hx 1, hx 2, hx 3]).2.2).1 =
        none ∧
      (Finalize testH (Push testH (NewBuilder ⟨5, none⟩) 100 [hx 1, hx 2, hx 3]).2.2).2.1 =
        ComputeChunkDigest testH 100 [hx 1, hx 2, hx 3]) :=
  C4_chunk_digest_consistency testH 5 100 [hx 1, hx 2, hx 3]
    (by decide) (by decide) (by decide)

theorem C9_lax_fresh_chunk_witness :
    Push testH (NewBuilder ⟨3, none⟩) 50 [hx 9] =
      (1, none,
        { NewBuilder ⟨3, none⟩ with
          inChunkElems := [elemDigest testH (50 % U64) (hx 9)],
          inChunkStart := 50 % U64,
          totalBlocks := ((NewBuilder ⟨3, none⟩).totalBlocks + 1) % U64 }) :=
  C9_lax_fresh_chunk testH (NewBuilder ⟨3, none⟩) 50 (hx 9)
    (by decide) (by decide) (by decide)

end JMDN
